import Mathlib

/-!
Verification of `src/src/Algorithm/ReadCoherentHaplotypeBuilder.cpp`
(the haplotype extension-and-coherency engine).

The engine keeps an ordered list of candidate haplotypes, repeatedly
extends every candidate one symbol at a time in each direction
(branching when several extension symbols are supported by the index),
and every tenth round culls candidates whose supporting-read placements
leave a gap larger than 20.

External collaborators are modelled as oracle functions supplied as
parameters:
 * `BWTAlgorithms::calculateDeBruijnExtensionsSingleIndex` (the index
   query) becomes `ExtensionOracle`;
 * `Overlapper::extendMatch` (the pairwise aligner) becomes
   `OverlapOracle`, returning the fields of `SequenceOverlap` that the
   engine consumes (`edit_distance` and `match[0].start`);
 * `HapgenUtil::extractHaplotypeReads` plus the reverse-complement
   normalisation performed by `getReads` becomes `ReadsOracle`, mapping
   the current candidate set to the rebuilt supporting read list.

The `MultipleAlignment` accumulator receives the accepted overlaps but
never feeds back into control flow or into the incoherency score, so it
is not modelled.
-/

/-- Direction of extension, `EdgeDir` in the C++ sources: `ED_SENSE`
appends at the right end, `ED_ANTISENSE` prepends at position 0. -/
inductive EdgeDir : Type
  | ED_SENSE : EdgeDir
  | ED_ANTISENSE : EdgeDir
deriving DecidableEq

/-- A candidate haplotype, a `std::string` in the source. -/
abbrev Haplotype := List Char

/-- Modelled from the spec: `DNA_ALPHABET::getBase` is declared outside
the excerpted sources; the spec fixes a small alphabet iterated in "a
fixed, deterministic alphabet order", with `A` before `C` before `G`
before `T` in its concrete examples. -/
def DNA_ALPHABET : List Char := ['A', 'C', 'G', 'T']

/-- The index query `calculateDeBruijnExtensionsSingleIndex`: given the
anchor k-mer and a direction, the per-symbol continuation count
(`AlphaCount64.get`). -/
abbrev ExtensionOracle := List Char → EdgeDir → Char → Nat

/-- The anchor k-mer extracted in `extendOnce`: the last `k` symbols
for `ED_SENSE`, the first `k` for `ED_ANTISENSE` (`substr`).  The
caller guarantees `k ≤ hap.length`; on shorter input the C++ `substr`
call would throw. -/
def queryKmer (k : Nat) (dir : EdgeDir) (hap : Haplotype) : List Char :=
  match dir with
  | EdgeDir.ED_SENSE => hap.drop (hap.length - k)
  | EdgeDir.ED_ANTISENSE => hap.take k

/-- The `extensionBases` string built in `extendOnce`: the alphabet
symbols whose continuation count reaches `m_kmerThreshold`, collected
in alphabet order. -/
def extensionBases (counts : Char → Nat) (threshold : Nat) : List Char :=
  DNA_ALPHABET.filter (fun b => decide (threshold ≤ counts b))

/-- Apply one extension symbol: `append` for sense, `insert(0, …)` for
antisense. -/
def applyBase (dir : EdgeDir) (b : Char) (hap : Haplotype) : Haplotype :=
  match dir with
  | EdgeDir.ED_SENSE => hap ++ [b]
  | EdgeDir.ED_ANTISENSE => b :: hap

/-- The per-candidate body of `extendOnce`, as a function of the
computed extension-base string: the updated candidate together with the
branched clones pushed onto `incoming_haplotypes`.  Zero valid bases
leave the candidate untouched; one valid base extends it in place; with
several, clones of the pre-extension candidate are staged for the bases
after the first, and the candidate itself takes the first base. -/
def branchOf (dir : EdgeDir) (hap : Haplotype) : List Char → Haplotype × List Haplotype
  | [] => (hap, [])
  | [b] => (applyBase dir b hap, [])
  | b :: rest => (applyBase dir b hap, rest.map (fun c => applyBase dir c hap))

/-- One candidate's extension inside `extendOnce`: query the index on
the anchor, filter by the threshold, then branch. -/
def extendHap (oracle : ExtensionOracle) (k threshold : Nat) (dir : EdgeDir)
    (hap : Haplotype) : Haplotype × List Haplotype :=
  branchOf dir hap (extensionBases (oracle (queryKmer k dir hap) dir) threshold)

/-- The iteration of `extendOnce` over `m_haplotypes`: each candidate
is updated in place while its branched clones accumulate in the
staging list `incoming_haplotypes`, in candidate order. -/
def extendPass (oracle : ExtensionOracle) (k threshold : Nat) (dir : EdgeDir) :
    List Haplotype → List Haplotype × List Haplotype
  | [] => ([], [])
  | h :: rest =>
    let p := extendHap oracle k threshold dir h
    let r := extendPass oracle k threshold dir rest
    (p.1 :: r.1, p.2 ++ r.2)

/-- `ReadCoherentHaplotypeBuilder::extendOnce`: run the pass, then
splice the staged haplotypes onto the end of the live list. -/
def extendOnce (oracle : ExtensionOracle) (k threshold : Nat) (dir : EdgeDir)
    (haps : List Haplotype) : List Haplotype :=
  let p := extendPass oracle k threshold dir haps
  p.1 ++ p.2

/-- The fields of `SequenceOverlap` that the engine consumes:
`overlap.edit_distance` and `overlap.match[0].start`. -/
structure SequenceOverlap : Type where
  edit_distance : Int
  matchStart : Int
deriving DecidableEq

/-- The pairwise aligner `Overlapper::extendMatch(haplotype, read,
start, 0, 2)` as a black box, indexed by haplotype, read, and the
tried start offset. -/
abbrev OverlapOracle := Haplotype → List Char → Nat → SequenceOverlap

/-- `std::numeric_limits<size_t>::max()`, the initial value of
`best_mismatches`. -/
def SIZE_MAX : Nat := 2 ^ 64 - 1

/-- The inner loop of the mismatch scan at start offset `j`: for each
read position `k`, contribute 0 when `j + k` is inside the haplotype
and the symbols agree, 1 otherwise (`j + k < haplotype.size() &&
haplotype[j+k] == read[k] ? 0 : 1`). -/
def scanRead (hap : Haplotype) (j : Nat) : List Char → Nat → Nat
  | [], _ => 0
  | c :: rest, k =>
    (match hap.get? (j + k) with
     | some a => if a = c then 0 else 1
     | none => 1) + scanRead hap j rest (k + 1)

/-- Mismatch count of `read` laid on the haplotype at offset `j`. -/
def mismatchesAt (hap read : Haplotype) (j : Nat) : Nat :=
  scanRead hap j read 0

/-- One step of the running best-offset scan over offsets `j`: a
strictly smaller mismatch count resets `best_starts` to `[j]`, an equal
one appends `j`, a larger one is ignored. -/
def scanStep (f : Nat → Nat) (st : Nat × List Nat) (j : Nat) : Nat × List Nat :=
  if f j < st.1 then (f j, [j])
  else if f j = st.1 then (st.1, st.2 ++ [j])
  else st

/-- The offset scan of `calculateHaplotypeIncoherency`: try every start
offset `j < haplotype.size()`, tracking `best_mismatches` (initially
`SIZE_MAX`) and the list `best_starts` of offsets attaining it. -/
def bestStarts (hap read : Haplotype) : Nat × List Nat :=
  (List.range hap.length).foldl (scanStep (mismatchesAt hap read)) (SIZE_MAX, [])

/-- The refinement loop over `best_starts`: align at each tied best
offset and record `overlap.match[0].start` whenever
`overlap.edit_distance <= m_maxEditDistance`. -/
def acceptPlacements (em : OverlapOracle) (maxEditDistance : Nat)
    (hap read : Haplotype) : List Int :=
  (bestStarts hap read).2.foldl
    (fun acc j =>
      let ov := em hap read j
      if ov.edit_distance ≤ (maxEditDistance : Int) then acc ++ [ov.matchStart] else acc)
    []

/-- The `start_vector` accumulated over all reads of `m_reads`, in read
order. -/
def startVector (em : OverlapOracle) (maxEditDistance : Nat) (hap : Haplotype)
    (reads : List (List Char)) : List Int :=
  reads.foldl (fun acc r => acc ++ acceptPlacements em maxEditDistance hap r) []

/-- Insert a value into an already sorted list of ints. -/
def insertSorted (x : Int) : List Int → List Int
  | [] => [x]
  | y :: ys => if x ≤ y then x :: y :: ys else y :: insertSorted x ys

/-- `std::sort` on the start vector.  Sorting a list of ints by value
has a unique result, so insertion sort is an exact model. -/
def sortInts : List Int → List Int
  | [] => []
  | x :: xs => insertSorted x (sortInts xs)

/-- The maximum-gap loop over the sorted start vector: `jump =
start_vector[i+1] - start_vector[i]`, maximum accumulated from 0. -/
def maxJumpGo : Int → List Int → Int → Int
  | _, [], m => m
  | prev, y :: ys, m => maxJumpGo y ys (if y - prev > m then y - prev else m)

/-- The tail of `calculateHaplotypeIncoherency`: sort `start_vector`,
then take the maximum gap between consecutive entries.  The C++ loop
bound is `start_vector.size() - 1` over `size_t`; when the vector is
empty this underflows to `SIZE_MAX` and the very first iteration reads
`start_vector[0]` and `start_vector[1]` out of bounds — undefined
behaviour, modelled as `none`. -/
def maxJump (v : List Int) : Option Int :=
  match sortInts v with
  | [] => none
  | x :: rest => some (maxJumpGo x rest 0)

/-- `ReadCoherentHaplotypeBuilder::calculateHaplotypeIncoherency` for
one haplotype, given the current supporting reads `m_reads`. -/
def calculateHaplotypeIncoherency (em : OverlapOracle) (maxEditDistance : Nat)
    (reads : List (List Char)) (hap : Haplotype) : Option Int :=
  maxJump (startVector em maxEditDistance hap reads)

/-- `ReadCoherentHaplotypeBuilder::cullHaplotypes` after the reads have
been rebuilt: erase exactly the candidates whose incoherency exceeds
20, keeping list order.  Undefined behaviour inside a score propagates
as `none`. -/
def cullHaplotypes (em : OverlapOracle) (maxEditDistance : Nat)
    (reads : List (List Char)) : List Haplotype → Option (List Haplotype)
  | [] => some []
  | h :: rest =>
    match calculateHaplotypeIncoherency em maxEditDistance reads h with
    | none => none
    | some maxJ =>
      match cullHaplotypes em maxEditDistance reads rest with
      | none => none
      | some rest' => some (if maxJ > 20 then rest' else h :: rest')

/-- The read-retrieval glue `getReads` (built on
`HapgenUtil::extractHaplotypeReads` and `reverseComplement`, both
outside the engine): from the current candidate set, the rebuilt and
orientation-normalised supporting read list. -/
abbrev ReadsOracle := List Haplotype → List (List Char)

/-- The engine's configuration and collaborators: the index and
aligner handles plus `m_kmer`, `m_kmerThreshold` and
`m_maxEditDistance` (the latter two are 1 under `setKmer` and the
constructor). -/
structure BuilderParams : Type where
  oracle : ExtensionOracle
  em : OverlapOracle
  readsOracle : ReadsOracle
  m_kmer : Nat
  m_kmerThreshold : Nat
  m_maxEditDistance : Nat

/-- The fixed round budget of `run`. -/
def MAX_ROUNDS : Nat := 100

/-- The body of the `while` loop of `run` at round number `round`
(rounds are numbered 1..100 by the post-increment): extend sense, then
antisense, then cull when `round % 10 == 0`. -/
def doRound (P : BuilderParams) (round : Nat) (haps : List Haplotype) :
    Option (List Haplotype) :=
  let h1 := extendOnce P.oracle P.m_kmer P.m_kmerThreshold EdgeDir.ED_SENSE haps
  let h2 := extendOnce P.oracle P.m_kmer P.m_kmerThreshold EdgeDir.ED_ANTISENSE h1
  if round % 10 = 0 then cullHaplotypes P.em P.m_maxEditDistance (P.readsOracle h2) h2
  else some h2

/-- The `while(round++ < MAX_ROUNDS)` loop, with `round` the number of
completed rounds and the second argument the rounds still to run. -/
def runLoop (P : BuilderParams) : Nat → Nat → List Haplotype → Option (List Haplotype)
  | _, 0, haps => some haps
  | round, r + 1, haps =>
    match doRound P (round + 1) haps with
    | none => none
    | some haps' => runLoop P (round + 1) r haps'

/-- `ReadCoherentHaplotypeBuilder::run`: starting from the single seed
installed by `setInitialHaplotype` (asserted by `run`), execute the
full round budget and return the surviving candidates. -/
def run (P : BuilderParams) (seed : Haplotype) : Option (List Haplotype) :=
  runLoop P 0 MAX_ROUNDS [seed]

/-- The primitive operations a round is made of, used to state the
round/cull schedule of `run`. -/
inductive BuilderAction : Type
  | extendSense : BuilderAction
  | extendAntisense : BuilderAction
  | cullStep : BuilderAction
deriving DecidableEq

/-- The actions one round performs, in order. -/
def roundActions (round : Nat) : List BuilderAction :=
  [BuilderAction.extendSense, BuilderAction.extendAntisense] ++
    (if round % 10 = 0 then [BuilderAction.cullStep] else [])

/-- The full action schedule of a run of `rounds` rounds, numbered
from 1. -/
def schedule (rounds : Nat) : List BuilderAction :=
  ((List.range' 1 rounds).map roundActions).flatten

/-- Interpretation of one primitive action on the candidate set. -/
def execAction (P : BuilderParams) (a : BuilderAction) (haps : List Haplotype) :
    Option (List Haplotype) :=
  match a with
  | BuilderAction.extendSense =>
    some (extendOnce P.oracle P.m_kmer P.m_kmerThreshold EdgeDir.ED_SENSE haps)
  | BuilderAction.extendAntisense =>
    some (extendOnce P.oracle P.m_kmer P.m_kmerThreshold EdgeDir.ED_ANTISENSE haps)
  | BuilderAction.cullStep =>
    cullHaplotypes P.em P.m_maxEditDistance (P.readsOracle haps) haps

/-- Interpretation of an action schedule. -/
def execSchedule (P : BuilderParams) : List BuilderAction → List Haplotype →
    Option (List Haplotype)
  | [], haps => some haps
  | a :: rest, haps =>
    match execAction P a haps with
    | none => none
    | some h => execSchedule P rest h

/-- Concrete index oracle for sample runs: `A` and `C` are always
supported with count 5, `G` and `T` never. -/
def oracleAC : ExtensionOracle := fun _ _ c => if c = 'A' ∨ c = 'C' then 5 else 0

/-- Concrete index oracle for sample runs: no symbol is ever
supported (every count is 0, the empty index result). -/
def oracleZero : ExtensionOracle := fun _ _ _ => 0

/-- Concrete aligner oracle for sample runs: every refinement succeeds
with edit distance 0 at start coordinate 0. -/
def emAccept : OverlapOracle := fun _ _ _ => { edit_distance := 0, matchStart := 0 }

/-- Concrete aligner oracle for sample runs: every refinement reports
edit distance 5, over any small budget, so no placement is accepted. -/
def emReject : OverlapOracle := fun _ _ _ => { edit_distance := 5, matchStart := 0 }

/-- Concrete parameter bundle for sample runs. -/
def paramsAC : BuilderParams :=
  { oracle := oracleAC, em := emAccept, readsOracle := fun _ => [],
    m_kmer := 4, m_kmerThreshold := 1, m_maxEditDistance := 1 }

/-!  Helper lemmas about the extension step.  -/

theorem applyBase_length (d : EdgeDir) (b : Char) (hap : Haplotype) :
    (applyBase d b hap).length = hap.length + 1 := by
  cases d <;> simp [applyBase]

theorem branchOf_cons (d : EdgeDir) (hap : Haplotype) (b : Char) (bs : List Char) :
    branchOf d hap (b :: bs) = (applyBase d b hap, bs.map (fun c => applyBase d c hap)) := by
  cases bs with
  | nil => rfl
  | cons c rest => rfl

theorem extendPass_fst (o : ExtensionOracle) (k t : Nat) (d : EdgeDir)
    (haps : List Haplotype) :
    (extendPass o k t d haps).1 = haps.map (fun h => (extendHap o k t d h).1) := by
  induction haps with
  | nil => rfl
  | cons h rest ih => simp [extendPass, ih]

theorem extendPass_snd (o : ExtensionOracle) (k t : Nat) (d : EdgeDir)
    (haps : List Haplotype) :
    (extendPass o k t d haps).2 = (haps.map (fun h => (extendHap o k t d h).2)).flatten := by
  induction haps with
  | nil => rfl
  | cons h rest ih => simp [extendPass, ih]

theorem extendHap_snd_mem (o : ExtensionOracle) (k t : Nat) (d : EdgeDir)
    (h nh : Haplotype) (hm : nh ∈ (extendHap o k t d h).2) :
    ∃ c : Char, nh = applyBase d c h := by
  unfold extendHap at hm
  cases hb : extensionBases (o (queryKmer k d h) d) t with
  | nil => rw [hb] at hm; simp [branchOf] at hm
  | cons b bs =>
    rw [hb, branchOf_cons] at hm
    simp only [List.mem_map] at hm
    obtain ⟨c, _, hc⟩ := hm
    exact ⟨c, hc.symm⟩

theorem extendOnce_eq_append (o : ExtensionOracle) (k t : Nat) (d : EdgeDir)
    (haps : List Haplotype) :
    extendOnce o k t d haps =
      haps.map (fun h => (extendHap o k t d h).1) ++ (extendPass o k t d haps).2 := by
  show (extendPass o k t d haps).1 ++ (extendPass o k t d haps).2 = _
  rw [extendPass_fst]

theorem extendOnce_get?_lt (o : ExtensionOracle) (k t : Nat) (d : EdgeDir)
    (haps : List Haplotype) (i : Nat) (hi : i < haps.length) :
    (extendOnce o k t d haps).get? i = (haps.get? i).map (fun h => (extendHap o k t d h).1) := by
  rw [extendOnce_eq_append]
  rw [List.get?_append (by simpa using hi)]
  exact List.get?_map _ haps i

theorem extendOnce_length_ge (o : ExtensionOracle) (k t : Nat) (d : EdgeDir)
    (haps : List Haplotype) :
    haps.length ≤ (extendOnce o k t d haps).length := by
  rw [extendOnce_eq_append, List.length_append, List.length_map]
  exact Nat.le_add_right _ _

/-- C1: when the anchor k-mer of a candidate has m ≥ 1 valid extension
symbols — the alphabet-ordered list `b :: bs` with `m = 1 + bs.length` —
one directional Extension Step extends that candidate in place with the
alphabet-first valid symbol `b` and stages exactly m − 1 new
candidates, each equal to the pre-extension sequence extended by one of
the other valid symbols, in alphabet order among themselves (the valid
list is a sublist of the alphabet); on a singleton candidate set the
post-step set is exactly the extended original followed by those m − 1
branches. -/
theorem extension_branch_fanout (o : ExtensionOracle) (k t : Nat) (d : EdgeDir)
    (hap : Haplotype) (b : Char) (bs : List Char)
    (hext : extensionBases (o (queryKmer k d hap) d) t = b :: bs) :
    (extendHap o k t d hap).1 = applyBase d b hap ∧
    (extendHap o k t d hap).2 = bs.map (fun c => applyBase d c hap) ∧
    (extendHap o k t d hap).2.length
      = (extensionBases (o (queryKmer k d hap) d) t).length - 1 ∧
    (extensionBases (o (queryKmer k d hap) d) t).Sublist DNA_ALPHABET ∧
    extendOnce o k t d [hap] = applyBase d b hap :: bs.map (fun c => applyBase d c hap) := by
  have hH : extendHap o k t d hap = (applyBase d b hap, bs.map (fun c => applyBase d c hap)) := by
    unfold extendHap
    rw [hext, branchOf_cons]
  refine ⟨by rw [hH], by rw [hH], ?_, List.filter_sublist _, ?_⟩
  · rw [hH, hext]
    simp
  · rw [extendOnce_eq_append]
    simp [extendPass, hH]

/-- Witness for C1 at a concrete input: anchor counts A:5, C:5, G:0,
T:0 with threshold 1; the original candidate takes `A`. -/
theorem extension_branch_fanout_witness :
    (extendHap oracleAC 4 1 EdgeDir.ED_SENSE ['A', 'C', 'G', 'T']).1
      = applyBase EdgeDir.ED_SENSE 'A' ['A', 'C', 'G', 'T'] :=
  (extension_branch_fanout oracleAC 4 1 EdgeDir.ED_SENSE ['A', 'C', 'G', 'T'] 'A' ['C']
    (by decide)).1

/-- C2: during one Extension Step pass the branched candidates live
only in the staging list `extendPass …  .2`; the merged result is the
in-place updates of all pre-existing candidates followed by the staged
branches, and every staged branch is a pre-existing candidate extended
by exactly one symbol — so no candidate created within the pass is
itself extended within that pass. -/
theorem extension_staged_merge (o : ExtensionOracle) (k t : Nat) (d : EdgeDir)
    (haps : List Haplotype) :
    extendOnce o k t d haps =
      haps.map (fun h => (extendHap o k t d h).1) ++
        (haps.map (fun h => (extendHap o k t d h).2)).flatten ∧
    ∀ nh ∈ (extendPass o k t d haps).2, ∃ h ∈ haps, ∃ c : Char, nh = applyBase d c h := by
  constructor
  · rw [extendOnce_eq_append, extendPass_snd]
  · intro nh hm
    rw [extendPass_snd] at hm
    obtain ⟨l, hl, hnh⟩ := List.mem_flatten.mp hm
    obtain ⟨h, hh, rfl⟩ := List.mem_map.mp hl
    obtain ⟨c, hc⟩ := extendHap_snd_mem o k t d h nh hnh
    exact ⟨h, hh, c, hc⟩

/-- Witness for C2 at a concrete input: the staged branch `ACGTC` of
the pass over `[ACGT]` is a one-symbol extension of the pre-existing
candidate. -/
theorem extension_staged_merge_witness :
    ∃ h ∈ ([['A', 'C', 'G', 'T']] : List Haplotype), ∃ c : Char,
      (['A', 'C', 'G', 'T', 'C'] : Haplotype) = applyBase EdgeDir.ED_SENSE c h :=
  (extension_staged_merge oracleAC 4 1 EdgeDir.ED_SENSE [['A', 'C', 'G', 'T']]).2
    ['A', 'C', 'G', 'T', 'C'] (by decide)

/-- C10: an Extension Step keeps every pre-existing candidate at its
position (the element at index `i < length` of the result is the
in-place update of the candidate at index `i`), and the whole result is
those updates followed by the newly branched candidates, so new
candidates sit after all pre-existing ones. -/
theorem extension_order_stable (o : ExtensionOracle) (k t : Nat) (d : EdgeDir)
    (haps : List Haplotype) :
    extendOnce o k t d haps =
      haps.map (fun h => (extendHap o k t d h).1) ++ (extendPass o k t d haps).2 ∧
    ∀ i, i < haps.length →
      (extendOnce o k t d haps).get? i
        = (haps.get? i).map (fun h => (extendHap o k t d h).1) :=
  ⟨extendOnce_eq_append o k t d haps, fun i hi => extendOnce_get?_lt o k t d haps i hi⟩

/-- Witness for C10 at a concrete input: index 0 of the extended set
over two candidates is the update of the first candidate. -/
theorem extension_order_stable_witness :
    (extendOnce oracleAC 4 1 EdgeDir.ED_SENSE
        [['A', 'C', 'G', 'T'], ['G', 'G', 'G', 'G']]).get? 0
      = (([['A', 'C', 'G', 'T'], ['G', 'G', 'G', 'G']] : List Haplotype).get? 0).map
          (fun h => (extendHap oracleAC 4 1 EdgeDir.ED_SENSE h).1) :=
  (extension_order_stable oracleAC 4 1 EdgeDir.ED_SENSE
    [['A', 'C', 'G', 'T'], ['G', 'G', 'G', 'G']]).2 0 (by decide)

/-- C5: a directional Extension Step never removes a candidate (the
result is at least as long as the input, and index `i` is still
occupied by the descendant of the candidate that was at index `i`), and
that descendant either is unchanged when the anchor has no valid
extension (stall) or is longer by exactly one symbol. -/
theorem extension_growth_per_step (o : ExtensionOracle) (k t : Nat) (d : EdgeDir)
    (haps : List Haplotype) (i : Nat) (hi : i < haps.length) :
    haps.length ≤ (extendOnce o k t d haps).length ∧
    ∃ h h', haps.get? i = some h ∧ (extendOnce o k t d haps).get? i = some h' ∧
      ((extensionBases (o (queryKmer k d h) d) t = [] ∧ h' = h) ∨
        h'.length = h.length + 1) := by
  refine ⟨extendOnce_length_ge o k t d haps, ?_⟩
  obtain ⟨h, hget⟩ : ∃ h, haps.get? i = some h := ⟨haps.get ⟨i, hi⟩, List.get?_eq_get hi⟩
  refine ⟨h, (extendHap o k t d h).1, hget, ?_, ?_⟩
  · rw [extendOnce_get?_lt o k t d haps i hi, hget]
    rfl
  · cases hb : extensionBases (o (queryKmer k d h) d) t with
    | nil =>
      left
      refine ⟨rfl, ?_⟩
      unfold extendHap
      rw [hb]
      rfl
    | cons b bs =>
      right
      unfold extendHap
      rw [hb, branchOf_cons]
      exact applyBase_length d b h

/-- Witness for C5 at a concrete input: the first of two candidates
grows by exactly one symbol. -/
theorem extension_growth_per_step_witness :
    ([['A', 'C', 'G', 'T'], ['G', 'G', 'G', 'G']] : List Haplotype).length ≤
      (extendOnce oracleAC 4 1 EdgeDir.ED_SENSE
        [['A', 'C', 'G', 'T'], ['G', 'G', 'G', 'G']]).length ∧
    ∃ h h', ([['A', 'C', 'G', 'T'], ['G', 'G', 'G', 'G']] : List Haplotype).get? 0 = some h ∧
      (extendOnce oracleAC 4 1 EdgeDir.ED_SENSE
        [['A', 'C', 'G', 'T'], ['G', 'G', 'G', 'G']]).get? 0 = some h' ∧
      ((extensionBases (oracleAC (queryKmer 4 EdgeDir.ED_SENSE h) EdgeDir.ED_SENSE) 1 = []
          ∧ h' = h) ∨ h'.length = h.length + 1) :=
  extension_growth_per_step oracleAC 4 1 EdgeDir.ED_SENSE
    [['A', 'C', 'G', 'T'], ['G', 'G', 'G', 'G']] 0 (by decide)

/-- C8: a candidate whose anchor query yields zero valid extension
symbols — in particular an empty index result, every count 0 — is left
exactly unchanged at its position by the Extension Step, stages no
branches, and the step never shrinks the candidate set; the step is a
total function, so an empty index result is a stall, never a failure. -/
theorem extension_stall_preserves (o : ExtensionOracle) (k t : Nat) (d : EdgeDir)
    (haps : List Haplotype) (i : Nat) (h : Haplotype)
    (hget : haps.get? i = some h)
    (hz : extensionBases (o (queryKmer k d h) d) t = []) :
    (extendOnce o k t d haps).get? i = some h ∧
    (extendHap o k t d h).2 = [] ∧
    haps.length ≤ (extendOnce o k t d haps).length := by
  have hi : i < haps.length := (List.get?_eq_some.mp hget).1
  have hH : extendHap o k t d h = (h, []) := by
    unfold extendHap
    rw [hz]
    rfl
  refine ⟨?_, by rw [hH], extendOnce_length_ge o k t d haps⟩
  rw [extendOnce_get?_lt o k t d haps i hi, hget]
  simp [hH]

/-- Witness for C8 at a concrete input: under the all-zero index
oracle the candidate stalls unchanged. -/
theorem extension_stall_preserves_witness :
    (extendOnce oracleZero 4 1 EdgeDir.ED_SENSE [['A', 'C', 'G', 'T']]).get? 0
      = some ['A', 'C', 'G', 'T'] ∧
    (extendHap oracleZero 4 1 EdgeDir.ED_SENSE ['A', 'C', 'G', 'T']).2 = [] ∧
    ([['A', 'C', 'G', 'T']] : List Haplotype).length ≤
      (extendOnce oracleZero 4 1 EdgeDir.ED_SENSE [['A', 'C', 'G', 'T']]).length :=
  extension_stall_preserves oracleZero 4 1 EdgeDir.ED_SENSE [['A', 'C', 'G', 'T']] 0
    ['A', 'C', 'G', 'T'] (by decide) (by decide)

theorem cullHaplotypes_eq_filter (em : OverlapOracle) (maxEditDistance : Nat)
    (reads : List (List Char)) (haps : List Haplotype)
    (hd : ∀ h ∈ haps, (calculateHaplotypeIncoherency em maxEditDistance reads h).isSome) :
    cullHaplotypes em maxEditDistance reads haps =
      some (haps.filter (fun h =>
        decide ((calculateHaplotypeIncoherency em maxEditDistance reads h).getD 0 ≤ 20))) := by
  induction haps with
  | nil => rfl
  | cons h rest ih =>
    obtain ⟨s, hsome⟩ := Option.isSome_iff_exists.mp (hd h (List.mem_cons_self h rest))
    have hrest := ih (fun x hx => hd x (List.mem_cons_of_mem h hx))
    unfold cullHaplotypes
    rw [hsome, hrest, List.filter_cons]
    by_cases hgt : s > 20
    · have hp : decide ((calculateHaplotypeIncoherency em maxEditDistance reads h).getD 0 ≤ 20)
          = false := by
        rw [hsome]
        simpa using hgt
      simp [hp, hgt]
    · have hp : decide ((calculateHaplotypeIncoherency em maxEditDistance reads h).getD 0 ≤ 20)
          = true := by
        rw [hsome]
        simpa using Int.not_lt.mp hgt
      simp [hp, hgt]

/-- C3: when every candidate's Incoherency Score is defined, the Cull
Step keeps exactly the candidates whose score is at most the
hard-coded gap threshold 20 (erasing exactly those whose score exceeds
it); in particular, when every score is at most 20 the candidate set is
returned unchanged in content, order and size. -/
theorem cull_removes_exactly_incoherent (em : OverlapOracle) (maxEditDistance : Nat)
    (reads : List (List Char)) (haps : List Haplotype)
    (hd : ∀ h ∈ haps, (calculateHaplotypeIncoherency em maxEditDistance reads h).isSome) :
    cullHaplotypes em maxEditDistance reads haps =
      some (haps.filter (fun h =>
        decide ((calculateHaplotypeIncoherency em maxEditDistance reads h).getD 0 ≤ 20))) ∧
    ((∀ h ∈ haps, (calculateHaplotypeIncoherency em maxEditDistance reads h).getD 0 ≤ 20) →
      cullHaplotypes em maxEditDistance reads haps = some haps) := by
  refine ⟨cullHaplotypes_eq_filter em maxEditDistance reads haps hd, fun hall => ?_⟩
  rw [cullHaplotypes_eq_filter em maxEditDistance reads haps hd]
  congr 1
  exact List.filter_eq_self.mpr (fun x hx => by simpa using hall x hx)

/-- Witness for C3 at a concrete input: one candidate with one
accepted placement, score 0, kept by the cull. -/
theorem cull_removes_exactly_incoherent_witness :
    cullHaplotypes emAccept 1 [['A']] [['A']] =
      some (([['A']] : List Haplotype).filter (fun h =>
        decide ((calculateHaplotypeIncoherency emAccept 1 [['A']] h).getD 0 ≤ 20))) :=
  (cull_removes_exactly_incoherent emAccept 1 [['A']] [['A']] (by decide)).1

/-- C4: the claim fails on the code for a candidate with zero accepted
placements.  There `start_vector` is empty and the C++ gap loop bound
`start_vector.size() - 1` underflows over `size_t` to `2 ^ 64 - 1`, so
the first iteration already indexes the empty vector out of bounds —
undefined behaviour (`none` in the model) instead of the score 0 the
claim requires.  With exactly one accepted placement the code does
return score 0 and the cull keeps the candidate, as the claim says. -/
theorem incoherency_zero_placements_undefined :
    startVector emReject 1 ['A', 'C', 'G', 'T'] [['T', 'T', 'T']] = [] ∧
    calculateHaplotypeIncoherency emReject 1 [['T', 'T', 'T']] ['A', 'C', 'G', 'T'] = none ∧
    cullHaplotypes emReject 1 [['T', 'T', 'T']] [['A', 'C', 'G', 'T']] = none ∧
    maxJump [] = none ∧
    (∀ x : Int, maxJump [x] = some 0) ∧
    cullHaplotypes emAccept 1 [['A']] [['A']] = some [['A']] :=
  ⟨by decide, by decide, by decide, rfl, fun x => rfl, by decide⟩

theorem execSchedule_append (P : BuilderParams) (l1 l2 : List BuilderAction)
    (haps : List Haplotype) :
    execSchedule P (l1 ++ l2) haps =
      match execSchedule P l1 haps with
      | none => none
      | some h => execSchedule P l2 h := by
  induction l1 generalizing haps with
  | nil => rfl
  | cons a rest ih =>
    simp only [List.cons_append, execSchedule]
    cases hA : execAction P a haps with
    | none => rfl
    | some h => exact ih h

theorem execSchedule_roundActions (P : BuilderParams) (n : Nat) (haps : List Haplotype) :
    execSchedule P (roundActions n) haps = doRound P n haps := by
  unfold roundActions doRound
  by_cases h : n % 10 = 0
  · cases hc : cullHaplotypes P.em P.m_maxEditDistance
        (P.readsOracle (extendOnce P.oracle P.m_kmer P.m_kmerThreshold EdgeDir.ED_ANTISENSE
          (extendOnce P.oracle P.m_kmer P.m_kmerThreshold EdgeDir.ED_SENSE haps)))
        (extendOnce P.oracle P.m_kmer P.m_kmerThreshold EdgeDir.ED_ANTISENSE
          (extendOnce P.oracle P.m_kmer P.m_kmerThreshold EdgeDir.ED_SENSE haps)) with
    | none => simp [h, execSchedule, execAction, hc]
    | some x => simp [h, execSchedule, execAction, hc]
  · simp [h, execSchedule, execAction]

theorem runLoop_eq_execSchedule (P : BuilderParams) (r round : Nat) (haps : List Haplotype) :
    runLoop P round r haps =
      execSchedule P (((List.range' (round + 1) r).map roundActions).flatten) haps := by
  induction r generalizing round haps with
  | zero => rfl
  | succ n ih =>
    rw [List.range'_succ]
    simp only [List.map_cons, List.flatten_cons]
    rw [execSchedule_append]
    show (match doRound P (round + 1) haps with
      | none => none
      | some haps' => runLoop P (round + 1) n haps') = _
    rw [execSchedule_roundActions]
    cases hd : doRound P (round + 1) haps with
    | none => rfl
    | some haps' => exact ih (round + 1) haps'

set_option maxRecDepth 4000 in
/-- C7: a run is the execution of the fixed action schedule of rounds
1..100, each round one sense Extension Step then one antisense one,
with a Cull Step exactly in the rounds whose number is a multiple of
10; the schedule holds 100 extensions per direction and exactly 10
culls (210 actions in all), independent of the candidate set, so the
loop terminates after that fixed budget regardless of candidate-set
size. -/
theorem run_round_schedule (P : BuilderParams) (seed : Haplotype) :
    run P seed = execSchedule P (schedule MAX_ROUNDS) [seed] ∧
    (schedule MAX_ROUNDS).countP (fun a => decide (a = BuilderAction.cullStep)) = 10 ∧
    (schedule MAX_ROUNDS).countP (fun a => decide (a = BuilderAction.extendSense)) = 100 ∧
    (schedule MAX_ROUNDS).countP (fun a => decide (a = BuilderAction.extendAntisense)) = 100 ∧
    (schedule MAX_ROUNDS).length = 210 ∧
    (∀ round, BuilderAction.cullStep ∈ roundActions round ↔ round % 10 = 0) ∧
    (∀ round, (roundActions round).take 2
        = [BuilderAction.extendSense, BuilderAction.extendAntisense]) := by
  refine ⟨?_, by decide, by decide, by decide, by decide, ?_, ?_⟩
  · show runLoop P 0 MAX_ROUNDS [seed] = _
    rw [runLoop_eq_execSchedule]
    rfl
  · intro round
    unfold roundActions
    by_cases h : round % 10 = 0 <;> simp [h]
  · intro round
    unfold roundActions
    by_cases h : round % 10 = 0 <;> simp [h]

/-- C9: two runs from the same seed and configuration whose index,
aligner and read-retrieval collaborators answer every query
identically produce identical candidate sets in identical order. -/
theorem run_deterministic (P1 P2 : BuilderParams) (seed : Haplotype)
    (ho : ∀ a d, P1.oracle a d = P2.oracle a d)
    (he : ∀ h r j, P1.em h r j = P2.em h r j)
    (hr : ∀ hs, P1.readsOracle hs = P2.readsOracle hs)
    (hk : P1.m_kmer = P2.m_kmer)
    (ht : P1.m_kmerThreshold = P2.m_kmerThreshold)
    (hm : P1.m_maxEditDistance = P2.m_maxEditDistance) :
    run P1 seed = run P2 seed := by
  obtain ⟨o1, e1, r1, k1, t1, m1⟩ := P1
  obtain ⟨o2, e2, r2, k2, t2, m2⟩ := P2
  have ho' : o1 = o2 := funext fun a => funext fun d => ho a d
  have he' : e1 = e2 := funext fun h => funext fun r => funext fun j => he h r j
  have hr' : r1 = r2 := funext fun hs => hr hs
  cases ho'
  cases he'
  cases hr'
  cases hk
  cases ht
  cases hm
  rfl

/-- Witness for C9 at a concrete input: the concrete parameter bundle
agrees with itself on every query, so the two runs coincide. -/
theorem run_deterministic_witness :
    run paramsAC ['A', 'C', 'G', 'T'] = run paramsAC ['A', 'C', 'G', 'T'] :=
  run_deterministic paramsAC paramsAC ['A', 'C', 'G', 'T']
    (fun _ _ => rfl) (fun _ _ _ => rfl) (fun _ => rfl) rfl rfl rfl


theorem scanRead_countP (hap : Haplotype) (j : Nat) (read : List Char) (k : Nat) :
    scanRead hap j read k =
      (List.range read.length).countP
        (fun i => decide (¬ (j + (k + i) < hap.length ∧
          hap.get? (j + (k + i)) = read.get? i))) := by
  induction read generalizing k with
  | nil => rfl
  | cons c rest ih =>
    show (match hap.get? (j + k) with
          | some a => if a = c then 0 else 1
          | none => 1) + scanRead hap j rest (k + 1) = _
    rw [List.length_cons, List.range_succ_eq_map, List.countP_cons, List.countP_map, ih (k + 1)]
    have hfun :
        ((fun i => decide (¬ (j + (k + i) < hap.length ∧
            hap.get? (j + (k + i)) = (c :: rest).get? i))) ∘ Nat.succ)
          = (fun i => decide (¬ (j + (k + 1 + i) < hap.length ∧
              hap.get? (j + (k + 1 + i)) = rest.get? i))) := by
      funext i
      have harith : j + (k + Nat.succ i) = j + (k + 1 + i) := by omega
      simp only [Function.comp_apply, harith]
      rfl
    rw [hfun]
    have hhead : (match hap.get? (j + k) with
          | some a => if a = c then 0 else 1
          | none => 1)
        = if decide (¬ (j + k < hap.length ∧ hap.get? (j + k) = some c)) then 1 else 0 := by
      cases hg : hap.get? (j + k) with
      | none => simp
      | some a =>
        have hlt : j + k < hap.length := (List.get?_eq_some.mp hg).1
        by_cases hac : a = c
        · simp [hac, hlt]
        · simp [hac, hlt]
    rw [hhead]
    have hzero :
        (decide (¬ (j + (k + 0) < hap.length ∧
          hap.get? (j + (k + 0)) = (c :: rest).get? 0)))
        = decide (¬ (j + k < hap.length ∧ hap.get? (j + k) = some c)) := rfl
    rw [hzero]
    omega

theorem scanStep_lt (f : Nat → Nat) (b : Nat) (s : List Nat) (j : Nat) (h : f j < b) :
    scanStep f (b, s) j = (f j, [j]) := by
  show (if f j < b then ((f j, [j]) : Nat × List Nat)
        else if f j = b then (b, s ++ [j]) else (b, s)) = (f j, [j])
  rw [if_pos h]

theorem scanStep_eqc (f : Nat → Nat) (b : Nat) (s : List Nat) (j : Nat) (h : f j = b) :
    scanStep f (b, s) j = (b, s ++ [j]) := by
  show (if f j < b then ((f j, [j]) : Nat × List Nat)
        else if f j = b then (b, s ++ [j]) else (b, s)) = (b, s ++ [j])
  rw [if_neg (by omega), if_pos h]

theorem scanStep_gt (f : Nat → Nat) (b : Nat) (s : List Nat) (j : Nat) (h : b < f j) :
    scanStep f (b, s) j = (b, s) := by
  show (if f j < b then ((f j, [j]) : Nat × List Nat)
        else if f j = b then (b, s ++ [j]) else (b, s)) = (b, s)
  rw [if_neg (by omega), if_neg (by omega)]

theorem foldl_min_le_init (f : Nat → Nat) (b : Nat) (js : List Nat) :
    js.foldl (fun a j => min a (f j)) b ≤ b := by
  induction js generalizing b with
  | nil => exact le_refl b
  | cons j rest ih =>
    exact le_trans (ih (min b (f j))) (min_le_left b (f j))

theorem foldl_min_le_mem (f : Nat → Nat) (js : List Nat) (x : Nat) (hx : x ∈ js) :
    ∀ b, js.foldl (fun a j => min a (f j)) b ≤ f x := by
  induction js with
  | nil => cases hx
  | cons j rest ih =>
    intro b
    rcases List.mem_cons.mp hx with h | h
    · subst h
      exact le_trans (foldl_min_le_init f (min b (f x)) rest) (min_le_right b (f x))
    · exact ih h (min b (f j))

theorem foldl_min_attained (f : Nat → Nat) (js : List Nat) :
    ∀ b, js.foldl (fun a j => min a (f j)) b = b ∨
      ∃ x ∈ js, js.foldl (fun a j => min a (f j)) b = f x := by
  induction js with
  | nil =>
    intro b
    exact Or.inl rfl
  | cons j rest ih =>
    intro b
    rcases ih (min b (f j)) with h | ⟨x, hx, hfx⟩
    · rcases le_or_lt b (f j) with hle | hlt
      · left
        show rest.foldl (fun a j => min a (f j)) (min b (f j)) = b
        rw [h, min_eq_left hle]
      · right
        refine ⟨j, List.mem_cons_self j rest, ?_⟩
        show rest.foldl (fun a j => min a (f j)) (min b (f j)) = f j
        rw [h, min_eq_right (le_of_lt hlt)]
    · right
      exact ⟨x, List.mem_cons_of_mem j hx, hfx⟩

theorem scanFoldl_fst (f : Nat → Nat) (js : List Nat) :
    ∀ b s, (js.foldl (scanStep f) (b, s)).1 = js.foldl (fun a j => min a (f j)) b := by
  induction js with
  | nil =>
    intro b s
    rfl
  | cons j rest ih =>
    intro b s
    rw [List.foldl_cons, List.foldl_cons]
    rcases Nat.lt_trichotomy (f j) b with h1 | h1 | h1
    · rw [scanStep_lt f b s j h1, ih, min_eq_right (le_of_lt h1)]
    · rw [scanStep_eqc f b s j h1, ih, h1, min_self]
    · rw [scanStep_gt f b s j h1, ih, min_eq_left (le_of_lt h1)]

theorem scanFoldl_snd (f : Nat → Nat) (js : List Nat) :
    ∀ b s, (js.foldl (scanStep f) (b, s)).2 =
      (if js.foldl (fun a j => min a (f j)) b = b then s else []) ++
        js.filter (fun j => decide (f j = js.foldl (fun a j => min a (f j)) b)) := by
  induction js with
  | nil =>
    intro b s
    simp
  | cons j rest ih =>
    intro b s
    rw [List.foldl_cons, List.foldl_cons, List.filter_cons]
    rcases Nat.lt_trichotomy (f j) b with h1 | h1 | h1
    · rw [scanStep_lt f b s j h1, ih (f j) [j]]
      have hmin : min b (f j) = f j := min_eq_right (le_of_lt h1)
      rw [hmin]
      have hne : rest.foldl (fun a j => min a (f j)) (f j) ≠ b := by
        have := foldl_min_le_init f (f j) rest
        omega
      rw [if_neg hne]
      by_cases hEq : f j = rest.foldl (fun a j => min a (f j)) (f j)
      · rw [if_pos hEq.symm, if_pos (by simpa using hEq)]
        simp
      · rw [if_neg (fun hc => hEq hc.symm), if_neg (by simpa using hEq)]
    · rw [scanStep_eqc f b s j h1, ih b (s ++ [j])]
      have hmin : min b (f j) = b := by
        rw [h1, min_self]
      rw [hmin]
      by_cases hBb : rest.foldl (fun a j => min a (f j)) b = b
      · have hj : decide (f j = rest.foldl (fun a j => min a (f j)) b) = true := by
          simp [h1, hBb]
        rw [if_pos hBb, if_pos hBb, if_pos hj]
        simp
      · have hj : ¬ (decide (f j = rest.foldl (fun a j => min a (f j)) b) = true) := by
          simp only [decide_eq_true_eq]
          intro hc
          exact hBb (by rw [← hc, h1])
        rw [if_neg hBb, if_neg hBb, if_neg hj]
    · rw [scanStep_gt f b s j h1, ih b s]
      have hmin : min b (f j) = b := min_eq_left (le_of_lt h1)
      rw [hmin]
      have hj : ¬ (decide (f j = rest.foldl (fun a j => min a (f j)) b) = true) := by
        simp only [decide_eq_true_eq]
        intro hc
        have := foldl_min_le_init f b rest
        omega
      rw [if_neg hj]

theorem mismatchesAt_le (hap read : Haplotype) (j : Nat) :
    mismatchesAt hap read j ≤ read.length := by
  unfold mismatchesAt
  rw [scanRead_countP hap j read 0]
  calc (List.range read.length).countP _ ≤ (List.range read.length).length :=
        List.countP_le_length _
    _ = read.length := List.length_range read.length

theorem bestStarts_snd_eq (hap read : Haplotype) (hne : hap ≠ [])
    (hlen : read.length < SIZE_MAX) :
    (bestStarts hap read).2 = (List.range hap.length).filter
      (fun j => decide (∀ i < hap.length,
        mismatchesAt hap read j ≤ mismatchesAt hap read i)) := by
  have hpos : 0 < hap.length := List.length_pos.mpr hne
  have h0 : 0 ∈ List.range hap.length := List.mem_range.mpr hpos
  set f := mismatchesAt hap read with hf
  set B := (List.range hap.length).foldl (fun a j => min a (f j)) SIZE_MAX with hB
  have hBlt : B < SIZE_MAX :=
    lt_of_le_of_lt
      (le_trans (foldl_min_le_mem f (List.range hap.length) 0 h0 SIZE_MAX)
        (mismatchesAt_le hap read 0))
      hlen
  obtain ⟨x0, hx0, hBx0⟩ : ∃ x ∈ List.range hap.length, B = f x := by
    rcases foldl_min_attained f (List.range hap.length) SIZE_MAX with h | h
    · rw [← hB] at h
      rw [h] at hBlt
      exact absurd hBlt (lt_irrefl _)
    · rw [← hB] at h
      exact h
  unfold bestStarts
  rw [scanFoldl_snd f (List.range hap.length) SIZE_MAX []]
  rw [← hB]
  have hifnil : (if B = SIZE_MAX then ([] : List Nat) else []) = [] := by
    by_cases h : B = SIZE_MAX <;> simp [h]
  rw [hifnil, List.nil_append]
  apply List.filter_congr
  intro j hj
  have hBlej : B ≤ f j := foldl_min_le_mem f (List.range hap.length) j hj SIZE_MAX
  by_cases hEq : f j = B
  · have hall : ∀ i < hap.length, B ≤ f i := by
      intro i hi
      exact foldl_min_le_mem f (List.range hap.length) i (List.mem_range.mpr hi) SIZE_MAX
    simp [hEq]
    exact hall
  · have hnall : ¬ (∀ i < hap.length, f j ≤ f i) := by
      intro hall
      apply hEq
      have h1 : f j ≤ f x0 := hall x0 (List.mem_range.mp hx0)
      omega
    simp [hEq, hnall]

theorem foldl_accept_eq_filterMap (em : OverlapOracle) (maxEditDistance : Nat)
    (hap read : Haplotype) (js : List Nat) :
    ∀ acc : List Int,
      js.foldl (fun acc j =>
        let ov := em hap read j
        if ov.edit_distance ≤ (maxEditDistance : Int) then acc ++ [ov.matchStart] else acc) acc
      = acc ++ js.filterMap (fun j =>
          if (em hap read j).edit_distance ≤ (maxEditDistance : Int)
          then some (em hap read j).matchStart else none) := by
  induction js with
  | nil =>
    intro acc
    simp
  | cons j rest ih =>
    intro acc
    by_cases h : (em hap read j).edit_distance ≤ (maxEditDistance : Int)
    · simp [List.foldl_cons, List.filterMap_cons, h, ih]
    · simp [List.foldl_cons, List.filterMap_cons, h, ih]

/-- C6: the mismatch scan for one read against one candidate tries
every start offset `j` from 0 to the candidate length minus one; the
score of an offset is the number of read positions `i` at which
`j + i` falls past the candidate's end or the symbols differ
(out-of-range positions count as mismatches, they are not excluded);
`best_starts` is exactly the list of offsets attaining the minimum
score; and each tied best offset contributes a placement exactly when
its refined alignment's edit distance is at most the edit-distance
budget. -/
theorem mismatch_scan_placements (em : OverlapOracle) (maxEditDistance : Nat)
    (hap read : Haplotype) (hne : hap ≠ []) (hlen : read.length < SIZE_MAX) :
    (∀ j, mismatchesAt hap read j =
      (List.range read.length).countP
        (fun i => decide (¬ (j + i < hap.length ∧ hap.get? (j + i) = read.get? i)))) ∧
    (bestStarts hap read).2 = (List.range hap.length).filter
      (fun j => decide (∀ i < hap.length,
        mismatchesAt hap read j ≤ mismatchesAt hap read i)) ∧
    acceptPlacements em maxEditDistance hap read
      = (bestStarts hap read).2.filterMap (fun j =>
          if (em hap read j).edit_distance ≤ (maxEditDistance : Int)
          then some (em hap read j).matchStart else none) := by
  refine ⟨?_, bestStarts_snd_eq hap read hne hlen, ?_⟩
  · intro j
    unfold mismatchesAt
    rw [scanRead_countP hap j read 0]
    congr 1
    funext i
    simp [Nat.zero_add]
  · unfold acceptPlacements
    rw [foldl_accept_eq_filterMap em maxEditDistance hap read (bestStarts hap read).2 []]
    exact List.nil_append _

/-- Witness for C6 at a concrete input: for candidate `AC` and read
`C` the set of best offsets is exactly the offsets of minimum mismatch
count. -/
theorem mismatch_scan_placements_witness :
    (bestStarts ['A', 'C'] ['C']).2 = (List.range (['A', 'C'] : Haplotype).length).filter
      (fun j => decide (∀ i < (['A', 'C'] : Haplotype).length,
        mismatchesAt ['A', 'C'] ['C'] j ≤ mismatchesAt ['A', 'C'] ['C'] i)) :=
  (mismatch_scan_placements emAccept 1 ['A', 'C'] ['C'] (by decide) (by decide)).2.1
